import Mathlib

set_option maxRecDepth 8192

/-!
Verification development for the Sniffr candidate-ranking pipeline.

The JavaScript sources are embedded shallowly:
* `src/scripts/content.js` — candidate extraction (`getSearchCandidates`),
  the heuristic scorer (`scoreCandidate`) and the local-scoring pipeline of
  the `sniffr-search` message listener (`localSearch`);
* `api/sniffr-proxy.js` — the ranking gateway (`rateCheck`, `cacheGet`,
  `cacheSet`, `handler`);
* `scripts/popup.js` — the orchestration layer of `performSearch`
  (`popupTruncate`, `popupDecide`).

JavaScript strings are modelled as `List Char` (the data in play is ASCII;
`toLowerCase` and the whitespace class are modelled on the ASCII range).
Score values are modelled as `Int`, counters and millisecond clocks as
`Nat`.  `Date.now()` is passed in explicitly as a parameter `t`; the
platform primitives `fetch`/OpenAI and `JSON.parse` are parameters of the
gateway step function (`remote`, `pf`).
-/

/-- JavaScript strings, as lists of characters. -/
abbrev Str := List Char

/-- Turn a Lean string literal into the `Str` model. -/
def toL (s : String) : Str := s.toList

/-- ASCII lower-casing of one character (JS `toLowerCase` on ASCII data). -/
def lowerChar (c : Char) : Char :=
  if 'A' ≤ c ∧ c ≤ 'Z' then Char.ofNat (c.toNat + 32) else c

/-- JS `String.prototype.toLowerCase` (ASCII range). -/
def lowerL (s : Str) : Str := s.map lowerChar

/-- Whitespace test backing JS `trim` and the `\s` regex class (ASCII part). -/
def isWs (c : Char) : Bool :=
  c == ' ' || c == '\t' || c == '\n' || c == '\r' || c == '\x0b' || c == '\x0c'

/-- JS `String.prototype.trim`: strip leading and trailing whitespace. -/
def trimL (s : Str) : Str :=
  ((s.dropWhile isWs).reverse.dropWhile isWs).reverse

/-- Accumulator pass behind JS `q.split(/\s+/).filter(Boolean)`. -/
def wordsAux : Str → Str → List Str
  | [], acc => if acc.isEmpty then [] else [acc]
  | c :: rest, acc =>
    if isWs c then
      if acc.isEmpty then wordsAux rest [] else acc :: wordsAux rest []
    else wordsAux rest (acc ++ [c])

/-- JS `q.split(/\s+/).filter(Boolean)`: the whitespace-separated words. -/
def wordsOf (s : Str) : List Str := wordsAux s []

/-- Does `hay` start with `pat`? -/
def leadsWith : Str → Str → Bool
  | _, [] => true
  | [], _ :: _ => false
  | c :: cs, d :: ds => c == d && leadsWith cs ds

/-- JS `String.prototype.includes`: `pat` occurs contiguously inside `hay`. -/
def hasSub : Str → Str → Bool
  | [], pat => leadsWith [] pat
  | c :: t, pat => leadsWith (c :: t) pat || hasSub t pat

/-- Sum of an integer-valued function over a list (JS `forEach` accumulation). -/
def sumBy (l : List α) (f : α → Int) : Int := (l.map f).sum

/-- Structural region of a candidate, as classified by `getRegion`. -/
inductive Region
  | nav | header | footer | upper | body
  deriving DecidableEq, Repr

/-- Candidate type tag (`"link"`, `"button"`, `"heading"`). -/
inductive CType
  | link | button | heading
  deriving DecidableEq, Repr

/-- A candidate as produced by `getSearchCandidates` (content.js).  The live
DOM reference and `tagName` are not modelled: no claim depends on them. -/
structure Cand where
  ctype : CType
  text : Str
  href : Option Str
  region : Region
  deriving DecidableEq, Repr

/-- content.js `navKeywords` — `"portal"` appears twice (first and last). -/
def navKeywords : List Str :=
  [toL "portal", toL "login", toL "log in", toL "sign in", toL "account",
   toL "dashboard", toL "student", toL "admissions", toL "apply",
   toL "register", toL "registration", toL "calendar", toL "schedule",
   toL "billing", toL "payment", toL "pay", toL "contact", toL "support",
   toL "help", toL "courses", toL "classes", toL "portal"]

/-- One iteration of the `navKeywords.forEach` body in `scoreCandidate`. -/
def kwTerm (text href q kw : Str) : Int :=
  (if hasSub text kw || hasSub href kw then 2 else 0) +
  (if hasSub q kw && (hasSub text kw || hasSub href kw) then 3 else 0)

/-- Total keyword bonus of `scoreCandidate` (the `navKeywords.forEach` loop). -/
def kwBonus (text href q : Str) : Int :=
  sumBy navKeywords (kwTerm text href q)

/-- The `switch (candidate.region)` structural bonus of `scoreCandidate`. -/
def regionBonus : Region → Int
  | .nav => 11
  | .header => 6
  | .upper => 4
  | .footer => -5
  | .body => 0

/-- content.js `scoreCandidate(candidate, query)` (lines 132–189). -/
def scoreCandidate (candidate : Cand) (query : Str) : Int :=
  let q := trimL (lowerL query)
  if q = [] then 0 else
  let text := lowerL candidate.text
  let href := lowerL (candidate.href.getD [])
  let words := wordsOf q
  let exactPart : Int :=
    (if text = q then 22 else 0) + (if hasSub text q then 14 else 0)
  let wordPart : Int :=
    sumBy words fun w =>
      (if text = w then 7 else if hasSub text w then 5 else 0) +
      (if hasSub href w then 3 else 0)
  let hrefPart : Int := if hasSub href q then 7 else 0
  let regionPart : Int := regionBonus candidate.region
  let headingPart : Int := if candidate.ctype = .heading then 3 else 0
  let len := candidate.text.length
  let lenPart : Int :=
    if 0 < len ∧ len ≤ 30 then 5 else if 70 < len then -3 else 0
  let fillerPart : Int :=
    if hasSub (lowerL candidate.text) (toL "click here") ||
       hasSub (lowerL candidate.text) (toL "read more") ||
       hasSub (lowerL candidate.text) (toL "learn more") then -2 else 0
  exactPart + wordPart + hrefPart + kwBonus text href q +
    regionPart + headingPart + lenPart + fillerPart

/-- content.js configuration constants (lines 4–6). -/
def MAX_CANDIDATES : Nat := 800

def MAX_RESULTS : Nat := 5

def MIN_ACCEPT_SCORE : Int := 8

/-- Stable insertion into a descending-sorted list: the element being
inserted comes from earlier in the input, so on ties it stays in front
(JS stable `sort` with comparator `(a, b) => b.score - a.score`). -/
def insDesc (x : Int × Cand) : List (Int × Cand) → List (Int × Cand)
  | [] => [x]
  | y :: ys => if y.1 ≤ x.1 then x :: y :: ys else y :: insDesc x ys

/-- Stable descending sort by score. -/
def sortDesc : List (Int × Cand) → List (Int × Cand)
  | [] => []
  | x :: xs => insDesc x (sortDesc xs)

/-- The local-scoring pipeline of the `sniffr-search` listener in content.js
(lines 216–273): trim the query, score every candidate, keep strictly
positive scores, sort descending, then keep the top `MAX_RESULTS` results
at or above `MIN_ACCEPT_SCORE`. -/
def localSearch (msgQuery : Str) (cands : List Cand) : List (Int × Cand) :=
  let query := trimL msgQuery
  if query = [] then [] else
  let scored := cands.filterMap fun c =>
    let s := scoreCandidate c query
    if 0 < s then some (s, c) else none
  ((sortDesc scored).filter fun r => MIN_ACCEPT_SCORE ≤ r.1).take MAX_RESULTS

/-- Abstraction of a DOM element as consumed by `getSearchCandidates`:
`visible` stands for the result of `isVisible`, `text` for `extractText`,
`href` for the (resolved) href attribute value and `region` for
`getRegion`.  Those helpers only read the DOM, so their results are taken
as fields of the page model. -/
structure Elem where
  visible : Bool
  text : Str
  href : Str
  region : Region
  deriving DecidableEq, Repr

/-- The scannable content of a page: the node lists returned by the three
`querySelectorAll` calls of `getSearchCandidates`, in document order. -/
structure Page where
  anchors : List Elem
  buttons : List Elem
  headings : List Elem

def typeStr : CType → Str
  | .link => toL "link"
  | .button => toL "button"
  | .heading => toL "heading"

/-- Dedup key of `pushCandidate`:
`(obj.type || "") + "|" + (obj.href || "") + "|" + (obj.text || "").slice(0, 60)`. -/
def candKey (c : Cand) : Str :=
  typeStr c.ctype ++ toL "|" ++ c.href.getD [] ++ toL "|" ++ c.text.take 60

/-- Anchor loop body (content.js lines 77–91): skip invisible elements and
elements with neither text nor href; `href` keeps the raw string. -/
def mkAnchorC (e : Elem) : Option Cand :=
  if e.visible then
    if e.text = [] ∧ e.href = [] then none
    else some ⟨.link, e.text, some e.href, e.region⟩
  else none

/-- Button loop body (lines 95–109): an empty href attribute becomes `null`. -/
def mkButtonC (e : Elem) : Option Cand :=
  if e.visible then
    if e.text = [] ∧ e.href = [] then none
    else some ⟨.button, e.text, if e.href = [] then none else some e.href, e.region⟩
  else none

/-- Heading loop body (lines 113–125): only the text is required. -/
def mkHeadingC (e : Elem) : Option Cand :=
  if e.visible then
    if e.text = [] then none else some ⟨.heading, e.text, none, e.region⟩
  else none

/-- One extraction loop of `getSearchCandidates`: `mk` is the loop body's
element filter, `seen`/`acc` mirror the `seen` set and `candidates` array of
`pushCandidate`, and the test after each push mirrors
`if (candidates.length >= MAX_CANDIDATES) break` — the break test runs even
when `pushCandidate` dropped a duplicate, but not when the element was
skipped by `continue`. -/
def scanLoop (mk : Elem → Option Cand) :
    List Elem → List Str → List Cand → List Str × List Cand
  | [], seen, acc => (seen, acc)
  | e :: rest, seen, acc =>
    match mk e with
    | none => scanLoop mk rest seen acc
    | some c =>
      let key := candKey c
      let s :=
        if seen.contains key then (seen, acc) else (seen ++ [key], acc ++ [c])
      if MAX_CANDIDATES ≤ s.2.length then s
      else scanLoop mk rest s.1 s.2

/-- content.js `getSearchCandidates()` (lines 63–129): scan anchors, then
buttons, then headings, sharing one `seen` set and one output array. -/
def getSearchCandidates (p : Page) : List Cand :=
  let s1 := scanLoop mkAnchorC p.anchors [] []
  let s2 := scanLoop mkButtonC p.buttons s1.1 s1.2
  (scanLoop mkHeadingC p.headings s2.1 s2.2).2

/-- A candidate as it appears in the JSON body sent to the gateway
(`{text?, href?, type?}`; falsy fields default to the empty string). -/
structure RCand where
  text : Str
  href : Str
  rtype : Str
  deriving DecidableEq, Repr

/-- The decoded remote judgment: `index` is `some n` exactly when the parsed
JSON object carried a numeric `index` (popup.js checks
`typeof parsed.index === "number"`). -/
structure Parsed where
  index : Option Int
  reason : Str
  deriving DecidableEq, Repr

/-- The `{ raw, parsed }` pair the gateway caches and returns. -/
structure CacheValue where
  raw : Str
  parsed : Option Parsed
  deriving DecidableEq, Repr

structure CacheEntry where
  value : CacheValue
  expiresAt : Nat
  deriving DecidableEq, Repr

structure RateEntry where
  count : Nat
  resetAt : Nat
  deriving DecidableEq, Repr

/-- JS `Map.get`. -/
def getA [DecidableEq κ] : List (κ × ν) → κ → Option ν
  | [], _ => none
  | (k', v) :: rest, k => if k' = k then some v else getA rest k

/-- JS `Map.set`: update in place, insertion order preserved. -/
def setA [DecidableEq κ] : List (κ × ν) → κ → ν → List (κ × ν)
  | [], k, v => [(k, v)]
  | (k', v') :: rest, k, v =>
    if k' = k then (k, v) :: rest else (k', v') :: setA rest k v

/-- JS `Map.delete`. -/
def delA [DecidableEq κ] : List (κ × ν) → κ → List (κ × ν)
  | [], _ => []
  | (k', v') :: rest, k => if k' = k then rest else (k', v') :: delA rest k

/-- The cache key `JSON.stringify({q: query, c: candidates.slice(0, 60).map(c
=> ({t: c.text || "", h: c.href || ""}))})` (sniffr-proxy.js line 113),
modelled as the canonical data the string encodes — `JSON.stringify` is
injective on this shape.  Only the first 60 candidates' text/href enter it. -/
abbrev CacheKey := Str × List (Str × Str)

def cacheKeyOf (query : Str) (cands : List RCand) : CacheKey :=
  (query, (cands.take 60).map fun c => (c.text, c.href))

abbrev CacheMap := List (CacheKey × CacheEntry)

abbrev RateMap := List (Str × RateEntry)

/-- The gateway's process-wide mutable maps (`CACHE` and `RATE`). -/
structure ServerState where
  cache : CacheMap
  rate : RateMap
  deriving DecidableEq, Repr

/-- sniffr-proxy.js configuration constants (lines 13–15). -/
def MAX_PER_WINDOW : Nat := 120

def WINDOW_MS : Nat := 60000

def CACHE_TTL_MS : Nat := 30000

/-- sniffr-proxy.js `cacheGet(key)` (lines 27–32): expired entries are
deleted and count as a miss. -/
def cacheGet (m : CacheMap) (key : CacheKey) (t : Nat) :
    Option CacheValue × CacheMap :=
  match getA m key with
  | none => (none, m)
  | some e => if e.expiresAt < t then (none, delA m key) else (some e.value, m)

/-- sniffr-proxy.js `cacheSet(key, value)` (lines 33–35). -/
def cacheSet (m : CacheMap) (key : CacheKey) (v : CacheValue) (t : Nat) :
    CacheMap :=
  setA m key ⟨v, t + CACHE_TTL_MS⟩

/-- Outcome record returned by `rateCheck`. -/
structure RateRes where
  ok : Bool
  remaining : Nat
  resetAt : Nat
  deriving DecidableEq, Repr

/-- sniffr-proxy.js `rateCheck(ip)` (lines 37–49), returning the outcome and
the updated `RATE` map.  The rejecting branch leaves the map untouched. -/
def rateCheck (m : RateMap) (ip : Str) (t : Nat) : RateRes × RateMap :=
  match getA m ip with
  | none =>
    (⟨true, MAX_PER_WINDOW - 1, t + WINDOW_MS⟩, setA m ip ⟨1, t + WINDOW_MS⟩)
  | some e =>
    if e.resetAt < t then
      (⟨true, MAX_PER_WINDOW - 1, t + WINDOW_MS⟩, setA m ip ⟨1, t + WINDOW_MS⟩)
    else if MAX_PER_WINDOW ≤ e.count then
      (⟨false, 0, e.resetAt⟩, m)
    else
      (⟨true, MAX_PER_WINDOW - (e.count + 1), e.resetAt⟩,
        setA m ip ⟨e.count + 1, e.resetAt⟩)

def openBrace : Char := '\x7b'

def closeBrace : Char := '\x7d'

/-- Index of the last occurrence of `c` in `s` (JS `lastIndexOf`), if any. -/
def lastIdxOf (s : Str) (c : Char) : Option Nat :=
  match s.reverse.findIdx? (· == c) with
  | none => none
  | some j => some (s.length - 1 - j)

/-- sniffr-proxy.js lines 139–149: slice the assistant text between the
first opening brace and the last closing brace and decode that slice.
`pf` stands for `JSON.parse` composed with reading the `index`/`reason`
fields (a platform primitive, hence a parameter); any decode failure is
`none` inside `pf` itself. -/
def parseAssistant (pf : Str → Option Parsed) (s : Str) : Option Parsed :=
  match s.findIdx? (· == openBrace), lastIdxOf s closeBrace with
  | some st, some en =>
    if st ≤ en then pf ((s.drop st).take (en + 1 - st)) else none
  | _, _ => none

inductive Method
  | post | other
  deriving DecidableEq, Repr

/-- An HTTP request to the gateway.  A missing or falsy `query` is the
empty string; `candidates = none` models a body whose `candidates` field is
not an array.  `ip` is the client identifier `getClientIp` extracts. -/
structure Request where
  method : Method
  ip : Str
  query : Str
  candidates : Option (List RCand)
  deriving DecidableEq, Repr

/-- The visible responses of the gateway's HTTP surface. -/
inductive Response
  | methodNotAllowed
  | rateLimited (retryAfter : Nat)
  | badRequest
  | okCached (value : CacheValue)
  | okFresh (value : CacheValue)
  | serverError
  deriving DecidableEq, Repr

structure HandlerOut where
  state : ServerState
  resp : Response
  remoteCalled : Bool
  deriving DecidableEq, Repr

/-- The candidate list enumerated into the prompt (sniffr-proxy.js line 125:
`i < Math.min(candidates.length, 80)`): the list the remote stage is shown. -/
def promptCands (cands : List RCand) : List RCand := cands.take 80

/-- sniffr-proxy.js `handler(req, res)` (lines 89–159) as a state-transition
function.  `t` is `Date.now()` for this request, `remote` is the outcome the
OpenAI call would have if control reached it (`.error` for a thrown
credential / network / non-2xx failure, `.ok raw` for an assistant reply to
the prompt over `promptCands`), and `pf` models `JSON.parse`.
`remoteCalled` records whether control reached `callOpenAI`.

`handlerBody` is the part of the handler after the method and rate checks
(body validation, cache lookup, remote call, cache fill); `handler` wires
it behind the method test and `rateCheck`. -/
def handlerBody (cache : CacheMap) (rmap : RateMap) (t : Nat) (req : Request)
    (remote : Except Unit Str) (pf : Str → Option Parsed) : HandlerOut :=
  match req.candidates with
  | none => ⟨⟨cache, rmap⟩, .badRequest, false⟩
  | some cands =>
    if req.query = [] then ⟨⟨cache, rmap⟩, .badRequest, false⟩
    else
      let key := cacheKeyOf req.query cands
      let cg := cacheGet cache key t
      match cg.1 with
      | some v => ⟨⟨cg.2, rmap⟩, .okCached v, false⟩
      | none =>
        match remote with
        | .error _ => ⟨⟨cg.2, rmap⟩, .serverError, true⟩
        | .ok raw =>
          let result : CacheValue := ⟨raw, parseAssistant pf raw⟩
          ⟨⟨cacheSet cg.2 key result t, rmap⟩, .okFresh result, true⟩

def handler (st : ServerState) (t : Nat) (req : Request)
    (remote : Except Unit Str) (pf : Str → Option Parsed) : HandlerOut :=
  if req.method ≠ .post then ⟨st, .methodNotAllowed, false⟩
  else
    let rc := rateCheck st.rate req.ip t
    if rc.1.ok = false then
      ⟨⟨st.cache, rc.2⟩, .rateLimited ((rc.1.resetAt - t + 999) / 1000), false⟩
    else
      handlerBody st.cache rc.2 t req remote pf

/-- popup.js line 243: `candidatesResp.candidates.slice(0, 80)` — the
truncated list the popup both sends to the gateway and later indexes. -/
def popupTruncate (cands : List RCand) : List RCand := cands.take 80

/-- The popup's resolution of one query after the server replied. -/
inductive PopupOutcome
  | remoteWin (w : RCand) (reason : Str)
  | localFallback
  deriving DecidableEq, Repr

/-- popup.js lines 281–323: act on the server's parsed judgment — select
`candidates[parsed.index]` when `index` is a number inside the truncated
list's bounds, otherwise fall back to local scoring. -/
def popupDecide (cands : List RCand) (parsed : Option Parsed) : PopupOutcome :=
  match parsed with
  | none => .localFallback
  | some p =>
    match p.index with
    | none => .localFallback
    | some i =>
      if h : 0 ≤ i ∧ i < (cands.length : Int) then
        .remoteWin (cands.get ⟨i.toNat, by omega⟩) p.reason
      else .localFallback

def qC8 : Str := List.replicate 71 'a'

def cexC8a : Cand := ⟨.link, List.replicate 71 'a', some [], .footer⟩

def cexC8e : Cand := ⟨.link, toL "portal", some [], .body⟩

def cexC8n : Cand :=
  ⟨.link, toL "portal x",
   some (toL "/login-account-dashboard-student-admissions-apply-registration-calendar-schedule-billing-payment-contact-support-help-courses-classes-portal"),
   .body⟩

def c9a : Cand := ⟨.link, toL "Pay My Bill", some (toL "/billing"), .nav⟩

def c9b : Cand := ⟨.link, toL "About Us", some (toL "/about"), .footer⟩

def portalKw : Str := toL "portal"

/-- The 20 non-`portal` entries of `navKeywords`, in order. -/
def otherKeywords : List Str :=
  [toL "login", toL "log in", toL "sign in", toL "account",
   toL "dashboard", toL "student", toL "admissions", toL "apply",
   toL "register", toL "registration", toL "calendar", toL "schedule",
   toL "billing", toL "payment", toL "pay", toL "contact", toL "support",
   toL "help", toL "courses", toL "classes"]

def fillRC : RCand := ⟨toL "c", toL "/c", toL "link"⟩

def xRC : RCand := ⟨toL "X", toL "/x", toL "link"⟩

def yRC : RCand := ⟨toL "Y", toL "/y", toL "link"⟩

def listA : List RCand := List.replicate 60 fillRC ++ [xRC]

def listB : List RCand := List.replicate 60 fillRC ++ [yRC]

def jC1 : Parsed := ⟨some 60, toL "r"⟩

def rawC1 : Str := [openBrace, closeBrace]

def pfC1 : Str → Option Parsed := fun s => if s = rawC1 then some jC1 else none

def reqA : Request := ⟨.post, toL "ip", toL "q", some listA⟩

def reqB : Request := ⟨.post, toL "ip", toL "q", some listB⟩

def ip0 : Str := toL "203.0.113.7"

def pf0 : Str → Option Parsed := fun _ => none

def st3 : ServerState := ⟨[], [(ip0, ⟨5, 70000⟩)]⟩

def req3 : Request := ⟨.post, ip0, toL "portal", none⟩

def st4 : ServerState := ⟨[], [(ip0, ⟨120, 70000⟩)]⟩

def req4 : Request := ⟨.post, ip0, toL "portal", some []⟩

/-- State after `k` successive requests through the gateway: request `k`
happens at time `tf k` with request data `reqf k` and remote outcome
`remf k`. -/
def handlerRun (st0 : ServerState) (tf : Nat → Nat) (reqf : Nat → Request)
    (remf : Nat → Except Unit Str) (pf : Str → Option Parsed) : Nat → ServerState
  | 0 => st0
  | k + 1 =>
    (handler (handlerRun st0 tf reqf remf pf k) (tf k) (reqf k) (remf k) pf).state

/-- Response of the `(k+1)`-st request in the run. -/
def respAt (st0 : ServerState) (tf : Nat → Nat) (reqf : Nat → Request)
    (remf : Nat → Except Unit Str) (pf : Str → Option Parsed) (k : Nat) : Response :=
  (handler (handlerRun st0 tf reqf remf pf k) (tf k) (reqf k) (remf k) pf).resp

def req5 : Request := ⟨.post, ip0, toL "portal", some []⟩

/-- Anchor candidate produced for `bigAnchor i`. -/
def candA (i : Nat) : Cand := ⟨.link, toL "t", some (List.replicate i 'h'), .body⟩

def candB : Cand := ⟨.button, toL "t", none, .body⟩

def candH : Cand := ⟨.heading, toL "t", none, .body⟩

/-- A visible anchor with text `"t"` and an href of `i` characters, so all
800 anchors have pairwise distinct dedup keys. -/
def bigAnchor (i : Nat) : Elem := ⟨true, toL "t", List.replicate i 'h', .body⟩

def plainElem : Elem := ⟨true, toL "t", [], .body⟩

/-- A page with 800 visible, pairwise-distinct anchors plus one visible
button and one visible heading. -/
def bigPage : Page :=
  ⟨(List.range MAX_CANDIDATES).map bigAnchor, [plainElem], [plainElem]⟩

theorem leadsWith_iff (p : Str) : ∀ hay, leadsWith hay p = true ↔ p <+: hay := by
  induction p with
  | nil => intro hay; cases hay <;> simp [leadsWith]
  | cons d ds ih =>
    intro hay
    cases hay with
    | nil => simp [leadsWith]
    | cons c cs =>
      simp only [leadsWith, Bool.and_eq_true, beq_iff_eq, List.cons_prefix_cons, ih]
      exact and_congr_left fun _ => eq_comm

theorem hasSub_iff (p : Str) : ∀ hay, hasSub hay p = true ↔ p <:+: hay := by
  intro hay
  induction hay with
  | nil => simp [hasSub, leadsWith_iff]
  | cons c t ih =>
    simp [hasSub, leadsWith_iff, ih, List.infix_cons_iff]

theorem wordsAux_infix (l : Str) : ∀ (acc : Str) (w : Str),
    w ∈ wordsAux l acc → w <:+: acc ++ l := by
  induction l with
  | nil =>
    intro acc w hw
    simp only [wordsAux] at hw
    split at hw
    · simp at hw
    · simp at hw
      subst hw
      simp
  | cons c rest ih =>
    intro acc w hw
    simp only [wordsAux] at hw
    by_cases hws : isWs c
    · rw [if_pos hws] at hw
      split at hw
      · have := ih [] w hw
        simp only [List.nil_append] at this
        exact this.trans ((List.suffix_cons c rest).trans (List.suffix_append acc (c :: rest))).isInfix
      · rcases List.mem_cons.mp hw with rfl | hw2
        · exact (List.prefix_append w (c :: rest)).isInfix
        · have := ih [] w hw2
          simp only [List.nil_append] at this
          exact this.trans ((List.suffix_cons c rest).trans (List.suffix_append acc (c :: rest))).isInfix
    · rw [if_neg hws] at hw
      have := ih (acc ++ [c]) w hw
      simpa using this

theorem wordsAux_ne_nil (l : Str) : ∀ acc,
    (acc ≠ [] ∨ ∃ c ∈ l, isWs c = false) → wordsAux l acc ≠ [] := by
  induction l with
  | nil =>
    intro acc h
    rcases h with h | ⟨c, hc, _⟩
    · simp only [wordsAux]
      rw [if_neg (by simpa [List.isEmpty_iff] using h)]
      simp
    · simp at hc
  | cons c rest ih =>
    intro acc h
    simp only [wordsAux]
    by_cases hws : isWs c
    · rw [if_pos hws]
      split
      · rename_i hacc
        apply ih []
        right
        rcases h with h | ⟨d, hd, hdws⟩
        · exact absurd (List.isEmpty_iff.mp hacc) h
        · rcases List.mem_cons.mp hd with rfl | hd2
          · rw [hws] at hdws; cases hdws
          · exact ⟨d, hd2, hdws⟩
      · simp
    · rw [if_neg hws]
      apply ih
      left
      simp

theorem wordsAux_consume (tw : Str) (htw : ∀ c ∈ tw, isWs c = false) :
    ∀ t acc, wordsAux (tw ++ t) acc = wordsAux t (acc ++ tw) := by
  induction tw with
  | nil => intro t acc; simp
  | cons c tw' ih =>
    intro t acc
    have hc : isWs c = false := htw c (by simp)
    simp only [List.cons_append, wordsAux, hc, List.append_eq]
    rw [if_neg (by simp)]
    rw [ih (fun d hd => htw d (by simp [hd])) t (acc ++ [c])]
    simp

theorem wordsAux_nows (l : Str) (h : ∀ c ∈ l, isWs c = false) (hl : l ≠ []) :
    wordsAux l [] = [l] := by
  have := wordsAux_consume l h [] []
  simp only [List.append_nil, List.nil_append] at this
  rw [this, wordsAux]
  simp [hl]

theorem dropWhile_head_not (p : α → Bool) : ∀ (l : List α) c r,
    l.dropWhile p = c :: r → p c = false := by
  intro l
  induction l with
  | nil => intro c r h; simp [List.dropWhile] at h
  | cons a t ih =>
    intro c r h
    by_cases hp : p a
    · rw [List.dropWhile_cons_of_pos hp] at h
      exact ih c r h
    · rw [List.dropWhile_cons_of_neg hp] at h
      cases h
      simpa using hp

theorem trimL_head (s : Str) (c : Char) (r : Str) (h : trimL s = c :: r) :
    isWs c = false := by
  have hsuf : ((s.dropWhile isWs).reverse.dropWhile isWs) <:+ (s.dropWhile isWs).reverse :=
    List.dropWhile_suffix isWs
  have hpre : trimL s <+: s.dropWhile isWs := by
    have := List.reverse_prefix.mpr hsuf
    simpa [trimL] using this
  rw [h] at hpre
  rcases hpre with ⟨t, ht⟩
  exact dropWhile_head_not isWs s c (r ++ t) (by rw [← ht]; simp)

theorem trimL_last (s : Str) : ∀ r c, trimL s = r ++ [c] → isWs c = false := by
  intro r c h
  have h2 : (s.dropWhile isWs).reverse.dropWhile isWs = c :: r.reverse := by
    have := congrArg List.reverse h
    simpa [trimL] using this
  exact dropWhile_head_not isWs (s.dropWhile isWs).reverse c r.reverse h2

theorem wordsOf_two_of_ws (l : Str)
    (hhead : ∃ c r, l = c :: r ∧ isWs c = false)
    (hlast : ∃ r c, l = r ++ [c] ∧ isWs c = false)
    (hws : ∃ c ∈ l, isWs c = true) : 2 ≤ (wordsOf l).length := by
  classical
  set p : Char → Bool := fun c => !isWs c with hp
  have hsplit : l.takeWhile p ++ l.dropWhile p = l := List.takeWhile_append_dropWhile p l
  have htwmem : ∀ c ∈ l.takeWhile p, isWs c = false := by
    intro c hc
    have := List.mem_takeWhile_imp hc
    simpa [hp] using this
  have htw_ne : l.takeWhile p ≠ [] := by
    rcases hhead with ⟨c, r, rfl, hc⟩
    simp [List.takeWhile, hp, hc]
  have hdw_ne : l.dropWhile p ≠ [] := by
    intro hnil
    rcases hws with ⟨c, hc, hcws⟩
    rw [hnil, List.append_nil] at hsplit
    have := htwmem c (by rw [hsplit]; exact hc)
    rw [this] at hcws
    cases hcws
  obtain ⟨s, rest, hdw⟩ := List.exists_cons_of_ne_nil hdw_ne
  have hs : isWs s = true := by
    have := dropWhile_head_not p l s rest hdw
    simpa [hp] using this
  rcases hlast with ⟨r', c₁, hl1, hc₁⟩
  have hrest_ne : rest ≠ [] := by
    intro hrnil
    have h5 : l = l.takeWhile p ++ [s] := by
      conv_lhs => rw [← hsplit, hdw, hrnil]
    rw [hl1] at h5
    have := (List.append_inj' h5 (by simp)).2
    have hcs : c₁ = s := by simpa using this
    rw [hcs, hs] at hc₁
    cases hc₁
  have hc₁mem : c₁ ∈ rest := by
    obtain ⟨rest', c₂, hr⟩ := (List.eq_nil_or_concat rest).resolve_left hrest_ne
    have h6 : l = (l.takeWhile p ++ s :: rest') ++ [c₂] := by
      conv_lhs => rw [← hsplit, hdw, hr]
      simp
    rw [hl1] at h6
    have := (List.append_inj' h6 (by simp)).2
    have hcs : c₁ = c₂ := by simpa using this
    rw [hr, hcs]
    simp
  have hrun : wordsOf l = l.takeWhile p :: wordsAux rest [] := by
    rw [wordsOf]
    conv_lhs => rw [← hsplit, hdw]
    rw [wordsAux_consume (l.takeWhile p) htwmem]
    simp [wordsAux, hs, List.isEmpty_iff, htw_ne]
  rw [hrun]
  have : wordsAux rest [] ≠ [] :=
    wordsAux_ne_nil rest [] (Or.inr ⟨c₁, hc₁mem, hc₁⟩)
  have : 1 ≤ (wordsAux rest []).length := by
    cases h : wordsAux rest [] with
    | nil => exact absurd h this
    | cons a b => simp
  simp only [List.length_cons]
  omega

theorem sumBy_nonneg (l : List α) (f : α → Int) (h : ∀ x ∈ l, 0 ≤ f x) :
    0 ≤ sumBy l f := by
  induction l with
  | nil => simp [sumBy]
  | cons a t ih =>
    simp only [sumBy, List.map_cons, List.sum_cons]
    have h1 := h a (by simp)
    have h2 := ih (fun x hx => h x (by simp [hx]))
    simp only [sumBy] at h2
    omega

theorem sumBy_ge (l : List α) (f : α → Int) (b : Int) (h : ∀ x ∈ l, b ≤ f x) :
    b * l.length ≤ sumBy l f := by
  induction l with
  | nil => simp [sumBy]
  | cons a t ih =>
    simp only [sumBy, List.map_cons, List.sum_cons, List.length_cons]
    have h1 := h a (by simp)
    have h2 := ih (fun x hx => h x (by simp [hx]))
    simp only [sumBy] at h2
    have : b * (↑t.length + 1) = b + b * ↑t.length := by ring
    push_cast
    rw [this]
    omega

theorem ite_int_nonneg {c : Prop} [Decidable c] {a b : Int} (ha : 0 ≤ a)
    (hb : 0 ≤ b) : 0 ≤ if c then a else b := by
  split <;> assumption

theorem kwTerm_nonneg (text href q kw : Str) : 0 ≤ kwTerm text href q kw := by
  rw [kwTerm]
  have h1 : (0:Int) ≤ if hasSub text kw || hasSub href kw then 2 else 0 :=
    ite_int_nonneg (by norm_num) le_rfl
  have h2 : (0:Int) ≤
      if hasSub q kw && (hasSub text kw || hasSub href kw) then 3 else 0 :=
    ite_int_nonneg (by norm_num) le_rfl
  omega

theorem kwBonus_nonneg (text href q : Str) : 0 ≤ kwBonus text href q :=
  sumBy_nonneg _ _ fun kw _ => kwTerm_nonneg text href q kw

theorem hasSub_refl (l : Str) : hasSub l l = true :=
  (hasSub_iff l l).mpr List.infix_rfl

theorem regionBonus_ge (r : Region) : -5 ≤ regionBonus r := by
  cases r <;> decide

theorem lenPart_ge (n : Nat) :
    (-3:Int) ≤ if 0 < n ∧ n ≤ 30 then 5 else if 70 < n then -3 else 0 := by
  split
  · norm_num
  · split <;> norm_num

/-- C8 (amended): a candidate whose text equals the query exactly
(case-insensitively, after the query's trim) scores at least 35 — not the
claimed 36, since the footer (−5) and long-label (−3) penalties can eat
into the 22+14+7 base of a single-word exact match; and such a candidate
need not outrank every non-exact candidate of the same region. -/
theorem C8_theorem (candidate : Cand) (query : Str)
    (hq : trimL (lowerL query) ≠ [])
    (ht : lowerL candidate.text = trimL (lowerL query)) :
    35 ≤ scoreCandidate candidate query := by
  simp only [scoreCandidate]
  rw [if_neg hq]
  set Q := trimL (lowerL query) with hQ
  rw [ht]
  set H := lowerL (candidate.href.getD []) with hH
  rw [if_pos rfl, if_pos (hasSub_refl Q)]
  have h7 : (0:Int) ≤ if hasSub H Q = true then 7 else 0 :=
    ite_int_nonneg (by norm_num) le_rfl
  have hkb : 0 ≤ kwBonus Q H Q := kwBonus_nonneg Q H Q
  have hreg : -5 ≤ regionBonus candidate.region := regionBonus_ge _
  have hhd : (0:Int) ≤ if candidate.ctype = .heading then 3 else 0 :=
    ite_int_nonneg (by norm_num) le_rfl
  have hlp := lenPart_ge candidate.text.length
  by_cases hws : ∀ c ∈ Q, isWs c = false
  · -- single-word query: no whitespace anywhere in Q
    have hwQ : wordsOf Q = [Q] := by rw [wordsOf]; exact wordsAux_nows Q hws hq
    rw [hwQ]
    have hf : ∀ pat : Str, ' ' ∈ pat → hasSub Q pat = false := by
      intro pat hsp
      rcases h : hasSub Q pat with _ | _
      · rfl
      · exfalso
        have hinf : pat <:+: Q := (hasSub_iff pat Q).mp h
        have := hws ' ' (hinf.subset hsp)
        simp [isWs] at this
    rw [hf (toL "click here") (by decide), hf (toL "read more") (by decide),
      hf (toL "learn more") (by decide)]
    simp only [sumBy, List.map_cons, List.map_nil, List.sum_cons, List.sum_nil,
      Bool.or_self, Bool.false_or]
    have h3 : (0:Int) ≤ if hasSub H Q = true then 3 else 0 :=
      ite_int_nonneg (by norm_num) le_rfl
    norm_num
    omega
  · -- multi-word query: at least two words, each worth at least 5
    push_neg at hws
    obtain ⟨cw, hcwm, hcww⟩ := hws
    have hcw : isWs cw = true := by
      rcases h : isWs cw with _ | _
      · exact absurd h hcww
      · rfl
    obtain ⟨c, r, hcr⟩ := List.exists_cons_of_ne_nil hq
    have hhead : ∃ c r, Q = c :: r ∧ isWs c = false :=
      ⟨c, r, hcr, trimL_head (lowerL query) c r (by rw [← hQ]; exact hcr)⟩
    obtain ⟨r2, c2, hr2⟩ := (List.eq_nil_or_concat Q).resolve_left hq
    have hlast : ∃ r c, Q = r ++ [c] ∧ isWs c = false := by
      refine ⟨r2, c2, by simpa using hr2, ?_⟩
      apply trimL_last (lowerL query) r2 c2
      rw [← hQ]
      simpa using hr2
    have h2w : 2 ≤ (wordsOf Q).length :=
      wordsOf_two_of_ws Q hhead hlast ⟨cw, hcwm, hcw⟩
    have h5 : ∀ w ∈ wordsOf Q, (5:Int) ≤
        (if Q = w then 7 else if hasSub Q w then 5 else 0) +
        (if hasSub H w then 3 else 0) := by
      intro w hw
      have hinf : w <:+: Q := by
        have := wordsAux_infix Q [] w hw
        simpa using this
      have hsub : hasSub Q w = true := (hasSub_iff w Q).mpr hinf
      have h3 : (0:Int) ≤ if hasSub H w = true then 3 else 0 :=
        ite_int_nonneg (by norm_num) le_rfl
      by_cases hqw : Q = w
      · rw [if_pos hqw]; omega
      · rw [if_neg hqw, if_pos hsub]; omega
    have hsum := sumBy_ge (wordsOf Q) _ 5 h5
    have hfp : (-2:Int) ≤
        if hasSub Q (toL "click here") || hasSub Q (toL "read more") ||
           hasSub Q (toL "learn more") then -2 else 0 := by
      split <;> norm_num
    omega

/-- C8 (counterexample): a footer link whose 71-character text equals the
query exactly scores 35, not ≥ 36; and a non-exact candidate of the same
region can outrank an exact match (78 vs 58 on query "portal"). -/
theorem C8_counterexample :
    (lowerL cexC8a.text = trimL (lowerL qC8) ∧
     scoreCandidate cexC8a qC8 = 35) ∧
    (lowerL cexC8e.text = trimL (lowerL (toL "portal")) ∧
     lowerL cexC8n.text ≠ trimL (lowerL (toL "portal")) ∧
     cexC8e.region = cexC8n.region ∧
     scoreCandidate cexC8e (toL "portal") < scoreCandidate cexC8n (toL "portal")) := by
  decide

/-- C8 (witness): the amended bound applied to the nav link "Portal" with
query "Portal". -/
theorem C8_witness :
    trimL (lowerL (toL "Portal")) ≠ [] ∧
    lowerL (toL "Portal") = trimL (lowerL (toL "Portal")) ∧
    35 ≤ scoreCandidate ⟨.link, toL "Portal", some [], .nav⟩ (toL "Portal") :=
  ⟨by decide, by decide, C8_theorem _ _ (by decide) (by decide)⟩

/-- C9 (counterexample): the footer candidate "About Us" of the spec's
worked example scores 0 (footer −5 plus concise-label +5), not ≤ −5. -/
theorem C9_counterexample :
    scoreCandidate c9b (toL "billing") = 0 ∧
    ¬ scoreCandidate c9b (toL "billing") ≤ -5 := by
  decide

/-- C9 (amended): on query "billing", "Pay My Bill" scores 33 ≥ 18 and is
the sole local result; "About Us" scores 0 — still not strictly positive,
so it is excluded, but its score is 0 rather than ≤ −5. -/
theorem C9_theorem :
    scoreCandidate c9a (toL "billing") = 33 ∧
    18 ≤ scoreCandidate c9a (toL "billing") ∧
    scoreCandidate c9b (toL "billing") = 0 ∧
    localSearch (toL "billing") [c9a, c9b] = [(33, c9a)] := by
  decide

/-- C10: `navKeywords` lists "portal" twice, so any candidate whose text or
href contains "portal" collects the +2 containment bonus twice (+4) and,
when the query also contains "portal", the +3 alignment bonus twice (+6),
on top of the single-occurrence bonuses of the other 20 keywords. -/
theorem C10_theorem (text href q : Str)
    (h : (hasSub text portalKw || hasSub href portalKw) = true) :
    navKeywords = portalKw :: otherKeywords ++ [portalKw] ∧
    kwBonus text href q =
      (4 + (if hasSub q portalKw then 6 else 0)) +
        sumBy otherKeywords (kwTerm text href q) := by
  have hdecomp : navKeywords = portalKw :: otherKeywords ++ [portalKw] := rfl
  refine ⟨hdecomp, ?_⟩
  rw [kwBonus, hdecomp]
  simp only [sumBy, List.map_cons, List.map_append, List.sum_cons,
    List.sum_append, List.map_nil, List.sum_nil, kwTerm, h, if_true,
    Bool.and_true, add_zero]
  rcases hqp : hasSub q portalKw with _ | _ <;> simp [hqp] <;> ring

/-- C10 (witness): the double portal bonus applied to text "portal" with
query "portal": the keyword loop contributes 4 + 6 there. -/
theorem C10_witness :
    (hasSub (toL "portal") portalKw || hasSub [] portalKw) = true ∧
    (navKeywords = portalKw :: otherKeywords ++ [portalKw] ∧
     kwBonus (toL "portal") [] (toL "portal") =
       (4 + (if hasSub (toL "portal") portalKw then 6 else 0)) +
         sumBy otherKeywords (kwTerm (toL "portal") [] (toL "portal"))) :=
  ⟨by decide, C10_theorem (toL "portal") [] (toL "portal") (by decide)⟩

/-- C2: a parsed remote judgment that is absent, carries no numeric
index, or carries an index that is negative (in particular −1) or at least
the truncated candidate list's length makes the orchestration take the
local-scoring fallback; and whenever a remote winner is selected at all it
is an element of the candidate list, so no out-of-range access can occur. -/
theorem C2_theorem (cands : List RCand) (op : Option Parsed)
    (h : op = none ∨ (∃ p, op = some p ∧ p.index = none) ∨
         (∃ p i, op = some p ∧ p.index = some i ∧
           (i < 0 ∨ (cands.length : Int) ≤ i))) :
    popupDecide cands op = .localFallback ∧
    ∀ (op2 : Option Parsed) (w : RCand) (r : Str),
      popupDecide cands op2 = .remoteWin w r →
      ∃ k : Nat, cands.get? k = some w := by
  constructor
  · rcases h with rfl | ⟨p, rfl, hpi⟩ | ⟨p, i, rfl, hpi, hrange⟩
    · rfl
    · simp [popupDecide, hpi]
    · simp only [popupDecide, hpi]
      rw [dif_neg]
      push_neg
      intro h0
      omega
  · intro op2 w r hw
    rcases op2 with _ | p
    · simp [popupDecide] at hw
    · rcases hpi : p.index with _ | i
      · simp [popupDecide, hpi] at hw
      · simp only [popupDecide, hpi] at hw
        split at hw
        · rename_i hb
          refine ⟨i.toNat, ?_⟩
          cases hw
          simp [List.get?_eq_get]
        · cases hw

/-- C2 (witness): the fallback theorem applied to a one-candidate list and
a judgment with index −1. -/
theorem C2_witness :
    ((some (⟨some (-1), toL "no match"⟩ : Parsed) : Option Parsed) = none ∨
     (∃ p, (some (⟨some (-1), toL "no match"⟩ : Parsed) : Option Parsed) = some p ∧
       p.index = none) ∨
     (∃ p i, (some (⟨some (-1), toL "no match"⟩ : Parsed) : Option Parsed) = some p ∧
       p.index = some i ∧
       (i < 0 ∨ (([⟨toL "a", toL "/a", toL "link"⟩] : List RCand).length : Int) ≤ i))) ∧
    (popupDecide [⟨toL "a", toL "/a", toL "link"⟩]
        (some ⟨some (-1), toL "no match"⟩) = .localFallback ∧
      ∀ (op2 : Option Parsed) (w : RCand) (r : Str),
        popupDecide [⟨toL "a", toL "/a", toL "link"⟩] op2 = .remoteWin w r →
        ∃ k : Nat, ([⟨toL "a", toL "/a", toL "link"⟩] : List RCand).get? k = some w) :=
  ⟨Or.inr (Or.inr ⟨_, -1, rfl, rfl, Or.inl (by norm_num)⟩),
   C2_theorem _ _ (Or.inr (Or.inr ⟨_, -1, rfl, rfl, Or.inl (by norm_num)⟩))⟩

/-- C1 (amended): for a freshly computed judgment the list the popup
indexes is exactly the prompt list the gateway shows the remote stage
(both truncate at 80), so a selected winner is the indexed element of the
remote-seen list.  For cached judgments the claim fails — see the
counterexample: the cache key covers only the first 60 candidates'
text/href projections. -/
theorem C1_theorem (raw : List RCand) (p : Parsed) (w : RCand) (r : Str)
    (h : popupDecide (popupTruncate raw) (some p) = .remoteWin w r) :
    promptCands (popupTruncate raw) = popupTruncate raw ∧
    ∃ i : Nat, p.index = some (i : Int) ∧
      (promptCands (popupTruncate raw)).get? i = some w := by
  have htake : promptCands (popupTruncate raw) = popupTruncate raw := by
    simp [promptCands, popupTruncate, List.take_take]
  refine ⟨htake, ?_⟩
  rcases hpi : p.index with _ | i
  · simp [popupDecide, hpi] at h
  · simp only [popupDecide, hpi] at h
    split at h
    · rename_i hb
      cases h
      refine ⟨i.toNat, ?_, ?_⟩
      · show some i = some ((i.toNat : Int))
        exact congrArg some (by omega)
      · rw [htake]
        simp [List.get?_eq_get]
    · cases h

/-- C1 (witness): the fresh-path alignment applied to a one-candidate list
with judgment index 0. -/
theorem C1_witness :
    popupDecide (popupTruncate [⟨toL "a", toL "/a", toL "link"⟩])
        (some ⟨some 0, toL "ok"⟩) = .remoteWin ⟨toL "a", toL "/a", toL "link"⟩ (toL "ok") ∧
    (promptCands (popupTruncate [⟨toL "a", toL "/a", toL "link"⟩]) =
        popupTruncate [⟨toL "a", toL "/a", toL "link"⟩] ∧
      ∃ i : Nat, (⟨some 0, toL "ok"⟩ : Parsed).index = some (i : Int) ∧
        (promptCands (popupTruncate [⟨toL "a", toL "/a", toL "link"⟩])).get? i =
          some ⟨toL "a", toL "/a", toL "link"⟩) :=
  ⟨by decide,
   C1_theorem [⟨toL "a", toL "/a", toL "link"⟩] ⟨some 0, toL "ok"⟩
     ⟨toL "a", toL "/a", toL "link"⟩ (toL "ok") (by decide)⟩

/-- C1 (counterexample): two requests with the same query and the same
first-60 text/href projections but different 61st candidates collide in
the cache, so the cached judgment with index 60, computed for `listA`, is
served for `listB` and the popup selects `yRC` — a candidate the remote
stage was never shown (it saw `xRC` at index 60). -/
theorem C1_counterexample :
    (handler ⟨[], []⟩ 0 reqA (.ok rawC1) pfC1).resp = .okFresh ⟨rawC1, some jC1⟩ ∧
    (handler (handler ⟨[], []⟩ 0 reqA (.ok rawC1) pfC1).state 0 reqB
        (.error ()) pfC1).resp = .okCached ⟨rawC1, some jC1⟩ ∧
    promptCands listA ≠ promptCands listB ∧
    popupDecide (popupTruncate listB) (some jC1) = .remoteWin yRC (toL "r") ∧
    (promptCands listA).get? 60 = some xRC ∧
    xRC ≠ yRC := by
  decide

theorem getA_setA_self [DecidableEq κ] (m : List (κ × ν)) (k : κ) (v : ν) :
    getA (setA m k v) k = some v := by
  induction m with
  | nil => simp [setA, getA]
  | cons kv rest ih =>
    rcases kv with ⟨k', v'⟩
    by_cases h : k' = k
    · simp [setA, getA, h]
    · simp [setA, getA, h, ih]

theorem rateCheck_fresh (m : RateMap) (ip : Str) (t : Nat)
    (h : getA m ip = none) :
    rateCheck m ip t =
      (⟨true, MAX_PER_WINDOW - 1, t + WINDOW_MS⟩,
       setA m ip ⟨1, t + WINDOW_MS⟩) := by
  simp [rateCheck, h]

theorem rateCheck_reset (m : RateMap) (ip : Str) (t : Nat) (e : RateEntry)
    (h : getA m ip = some e) (hw : e.resetAt < t) :
    rateCheck m ip t =
      (⟨true, MAX_PER_WINDOW - 1, t + WINDOW_MS⟩,
       setA m ip ⟨1, t + WINDOW_MS⟩) := by
  simp [rateCheck, h, hw]

theorem rateCheck_inc (m : RateMap) (ip : Str) (t : Nat) (e : RateEntry)
    (h : getA m ip = some e) (hw : ¬ e.resetAt < t)
    (hc : e.count < MAX_PER_WINDOW) :
    rateCheck m ip t =
      (⟨true, MAX_PER_WINDOW - (e.count + 1), e.resetAt⟩,
       setA m ip ⟨e.count + 1, e.resetAt⟩) := by
  simp [rateCheck, h, hw]
  omega

theorem rateCheck_reject (m : RateMap) (ip : Str) (t : Nat) (e : RateEntry)
    (h : getA m ip = some e) (hw : ¬ e.resetAt < t)
    (hc : MAX_PER_WINDOW ≤ e.count) :
    rateCheck m ip t = (⟨false, 0, e.resetAt⟩, m) := by
  simp [rateCheck, h, hw, hc]

/-- C4 (amended): a request from a client at the ceiling inside an active
window is rejected with 429 carrying ceil((resetAt − now)/1000) seconds of
Retry-After, and the server state — in particular the client's counter —
is left completely unchanged: the rejecting branch of `rateCheck` performs
no update, contrary to the claim's 'counters still updated'. -/
theorem C4_theorem (st : ServerState) (t : Nat) (req : Request)
    (remote : Except Unit Str) (pf : Str → Option Parsed) (e : RateEntry)
    (hm : req.method = .post)
    (he : getA st.rate req.ip = some e)
    (hw : ¬ e.resetAt < t)
    (hc : MAX_PER_WINDOW ≤ e.count) :
    handler st t req remote pf =
      ⟨st, .rateLimited ((e.resetAt - t + 999) / 1000), false⟩ := by
  simp only [handler, hm, ne_eq]
  rw [if_neg (by simp)]
  rw [rateCheck_reject st.rate req.ip t e he hw hc]
  simp

/-- C3 (amended): a malformed body (query missing or candidates not a
list) is rejected with 400 and the cache is untouched, but the rate-window
map has already been mutated, because the gateway runs `rateCheck` before
body validation. -/
theorem C3_theorem (st : ServerState) (t : Nat) (req : Request)
    (remote : Except Unit Str) (pf : Str → Option Parsed)
    (hm : req.method = .post)
    (hok : (rateCheck st.rate req.ip t).1.ok = true)
    (hbad : req.candidates = none ∨ req.query = []) :
    handler st t req remote pf =
      ⟨⟨st.cache, (rateCheck st.rate req.ip t).2⟩, .badRequest, false⟩ := by
  simp only [handler, hm, ne_eq]
  rw [if_neg (by simp)]
  rw [if_neg (by simp [hok])]
  rcases hbad with hb | hb
  · simp [handlerBody, hb]
  · rcases hc : req.candidates with _ | cands
    · simp [handlerBody, hc]
    · simp [handlerBody, hc, hb]

/-- C3 (counterexample): a malformed request from a client with an active
window is answered 400 yet increments that client's rate counter from 5
to 6 — the claim's 'no state mutated' fails on the rate window. -/
theorem C3_counterexample :
    (handler st3 10000 req3 (.error ()) pf0).resp = .badRequest ∧
    (handler st3 10000 req3 (.error ()) pf0).state.cache = st3.cache ∧
    (handler st3 10000 req3 (.error ()) pf0).state.rate ≠ st3.rate ∧
    getA (handler st3 10000 req3 (.error ()) pf0).state.rate ip0 =
      some ⟨6, 70000⟩ := by
  decide

/-- C3 (witness): the amended 400 behaviour at a concrete state and
malformed request. -/
theorem C3_witness :
    (req3.method = .post ∧ (rateCheck st3.rate req3.ip 10000).1.ok = true ∧
      req3.candidates = none) ∧
    handler st3 10000 req3 (.error ()) pf0 =
      ⟨⟨st3.cache, (rateCheck st3.rate req3.ip 10000).2⟩, .badRequest, false⟩ :=
  ⟨⟨rfl, by decide, rfl⟩,
   C3_theorem st3 10000 req3 (.error ()) pf0 rfl (by decide) (Or.inl rfl)⟩

/-- C4 (counterexample): a 429 rejection leaves the whole server state
unchanged; the rejected client's counter still reads 120, not 121. -/
theorem C4_counterexample :
    (handler st4 10000 req4 (.error ()) pf0).resp = .rateLimited 60 ∧
    (handler st4 10000 req4 (.error ()) pf0).state = st4 ∧
    getA (handler st4 10000 req4 (.error ()) pf0).state.rate ip0 =
      some ⟨120, 70000⟩ := by
  decide

/-- C4 (witness): the amended 429 behaviour at a concrete state with a
full window. -/
theorem C4_witness :
    (req4.method = .post ∧ getA st4.rate req4.ip = some ⟨120, 70000⟩ ∧
      ¬ (70000:Nat) < 10000 ∧ MAX_PER_WINDOW ≤ 120) ∧
    handler st4 10000 req4 (.error ()) pf0 =
      ⟨st4, .rateLimited ((70000 - 10000 + 999) / 1000), false⟩ :=
  ⟨⟨rfl, by decide, by decide, by decide⟩,
   C4_theorem st4 10000 req4 (.error ()) pf0 ⟨120, 70000⟩ rfl (by decide)
     (by decide) (by decide)⟩

/-- C6: a (query, candidates) pair that misses the cache and passes the
rate check invokes the remote call and returns a fresh result; the same
pair again within the 30s TTL is answered from the cache with the stored
judgment, tagged cached, without control reaching the remote call
(whatever the remote would do); a third identical call after TTL expiry
reaches the remote call again and returns a fresh result. -/
theorem C6_theorem (st0 : ServerState) (t1 t2 t3 : Nat) (ip q raw1 raw3 : Str)
    (cands : List RCand) (pf : Str → Option Parsed) (rem2 : Except Unit Str)
    (hq : q ≠ [])
    (hr : getA st0.rate ip = none)
    (hc : getA st0.cache (cacheKeyOf q cands) = none)
    (h2 : t2 ≤ t1 + CACHE_TTL_MS)
    (h3lo : t1 + CACHE_TTL_MS < t3)
    (h3hi : t3 ≤ t1 + WINDOW_MS) :
    (handler st0 t1 ⟨.post, ip, q, some cands⟩ (.ok raw1) pf).resp =
        .okFresh ⟨raw1, parseAssistant pf raw1⟩ ∧
    (handler st0 t1 ⟨.post, ip, q, some cands⟩ (.ok raw1) pf).remoteCalled = true ∧
    (handler (handler st0 t1 ⟨.post, ip, q, some cands⟩ (.ok raw1) pf).state t2
        ⟨.post, ip, q, some cands⟩ rem2 pf).resp =
      .okCached ⟨raw1, parseAssistant pf raw1⟩ ∧
    (handler (handler st0 t1 ⟨.post, ip, q, some cands⟩ (.ok raw1) pf).state t2
        ⟨.post, ip, q, some cands⟩ rem2 pf).remoteCalled = false ∧
    (handler (handler (handler st0 t1 ⟨.post, ip, q, some cands⟩ (.ok raw1) pf).state t2
        ⟨.post, ip, q, some cands⟩ rem2 pf).state t3
        ⟨.post, ip, q, some cands⟩ (.ok raw3) pf).resp =
      .okFresh ⟨raw3, parseAssistant pf raw3⟩ ∧
    (handler (handler (handler st0 t1 ⟨.post, ip, q, some cands⟩ (.ok raw1) pf).state t2
        ⟨.post, ip, q, some cands⟩ rem2 pf).state t3
        ⟨.post, ip, q, some cands⟩ (.ok raw3) pf).remoteCalled = true := by
  have eW : WINDOW_MS = 60000 := rfl
  have eC : CACHE_TTL_MS = 30000 := rfl
  have ho1 : handler st0 t1 ⟨.post, ip, q, some cands⟩ (.ok raw1) pf =
      ⟨⟨cacheSet st0.cache (cacheKeyOf q cands) ⟨raw1, parseAssistant pf raw1⟩ t1,
        setA st0.rate ip ⟨1, t1 + WINDOW_MS⟩⟩,
       .okFresh ⟨raw1, parseAssistant pf raw1⟩, true⟩ := by
    simp [handler, handlerBody, rateCheck, cacheGet, hr, hc, hq]
  have hg1 : getA (setA st0.rate ip (⟨1, t1 + WINDOW_MS⟩ : RateEntry)) ip =
      some ⟨1, t1 + WINDOW_MS⟩ := getA_setA_self st0.rate ip _
  have hg2 : getA
      (cacheSet st0.cache (cacheKeyOf q cands) ⟨raw1, parseAssistant pf raw1⟩ t1)
      (cacheKeyOf q cands) =
      some ⟨⟨raw1, parseAssistant pf raw1⟩, t1 + CACHE_TTL_MS⟩ := by
    rw [cacheSet]
    exact getA_setA_self st0.cache _ _
  have hA : ¬ t1 + WINDOW_MS < t2 := by omega
  have hB : ¬ t1 + CACHE_TTL_MS < t2 := by omega
  have ho2 : handler
      (handler st0 t1 ⟨.post, ip, q, some cands⟩ (.ok raw1) pf).state t2
      ⟨.post, ip, q, some cands⟩ rem2 pf =
      ⟨⟨cacheSet st0.cache (cacheKeyOf q cands) ⟨raw1, parseAssistant pf raw1⟩ t1,
        setA (setA st0.rate ip ⟨1, t1 + WINDOW_MS⟩) ip ⟨2, t1 + WINDOW_MS⟩⟩,
       .okCached ⟨raw1, parseAssistant pf raw1⟩, false⟩ := by
    rw [ho1]
    simp [handler, handlerBody, rateCheck, cacheGet, hg1, hg2, hA, hB, hq,
      MAX_PER_WINDOW]
  have hg3 : getA (setA (setA st0.rate ip ⟨1, t1 + WINDOW_MS⟩) ip
      (⟨2, t1 + WINDOW_MS⟩ : RateEntry)) ip = some ⟨2, t1 + WINDOW_MS⟩ :=
    getA_setA_self _ ip _
  have hA3 : ¬ t1 + WINDOW_MS < t3 := by omega
  refine ⟨by rw [ho1], by rw [ho1], by rw [ho2], by rw [ho2], ?_, ?_⟩
  · rw [ho2]
    simp [handler, handlerBody, rateCheck, cacheGet, hg3, hg2, hA3, h3lo, hq,
      MAX_PER_WINDOW]
  · rw [ho2]
    simp [handler, handlerBody, rateCheck, cacheGet, hg3, hg2, hA3, h3lo, hq,
      MAX_PER_WINDOW]

/-- C6 (witness): the cache round trip at concrete times 0, 10000 and
40000 ms. -/
theorem C6_witness :
    (toL "portal" ≠ [] ∧
     getA (⟨[], []⟩ : ServerState).rate ip0 = none ∧
     getA (⟨[], []⟩ : ServerState).cache (cacheKeyOf (toL "portal") []) = none ∧
     10000 ≤ 0 + CACHE_TTL_MS ∧ 0 + CACHE_TTL_MS < 40000 ∧
     40000 ≤ 0 + WINDOW_MS) ∧
    ((handler ⟨[], []⟩ 0 ⟨.post, ip0, toL "portal", some []⟩ (.ok (toL "alpha")) pf0).resp =
        .okFresh ⟨toL "alpha", parseAssistant pf0 (toL "alpha")⟩ ∧
     (handler ⟨[], []⟩ 0 ⟨.post, ip0, toL "portal", some []⟩ (.ok (toL "alpha")) pf0).remoteCalled = true ∧
     (handler (handler ⟨[], []⟩ 0 ⟨.post, ip0, toL "portal", some []⟩ (.ok (toL "alpha")) pf0).state 10000
         ⟨.post, ip0, toL "portal", some []⟩ (.error ()) pf0).resp =
       .okCached ⟨toL "alpha", parseAssistant pf0 (toL "alpha")⟩ ∧
     (handler (handler ⟨[], []⟩ 0 ⟨.post, ip0, toL "portal", some []⟩ (.ok (toL "alpha")) pf0).state 10000
         ⟨.post, ip0, toL "portal", some []⟩ (.error ()) pf0).remoteCalled = false ∧
     (handler (handler (handler ⟨[], []⟩ 0 ⟨.post, ip0, toL "portal", some []⟩ (.ok (toL "alpha")) pf0).state 10000
         ⟨.post, ip0, toL "portal", some []⟩ (.error ()) pf0).state 40000
         ⟨.post, ip0, toL "portal", some []⟩ (.ok (toL "beta")) pf0).resp =
       .okFresh ⟨toL "beta", parseAssistant pf0 (toL "beta")⟩ ∧
     (handler (handler (handler ⟨[], []⟩ 0 ⟨.post, ip0, toL "portal", some []⟩ (.ok (toL "alpha")) pf0).state 10000
         ⟨.post, ip0, toL "portal", some []⟩ (.error ()) pf0).state 40000
         ⟨.post, ip0, toL "portal", some []⟩ (.ok (toL "beta")) pf0).remoteCalled = true) :=
  ⟨⟨by decide, rfl, rfl, by decide, by decide, by decide⟩,
   C6_theorem ⟨[], []⟩ 0 10000 40000 ip0 (toL "portal") (toL "alpha")
     (toL "beta") [] pf0 (.error ()) (by decide) rfl rfl (by decide) (by decide)
     (by decide)⟩

theorem handlerBody_rate (cache : CacheMap) (rmap : RateMap) (t : Nat)
    (req : Request) (rem : Except Unit Str) (pf : Str → Option Parsed) :
    (handlerBody cache rmap t req rem pf).state.rate = rmap := by
  rcases hc : req.candidates with _ | cands
  · simp [handlerBody, hc]
  · by_cases hq : req.query = []
    · simp [handlerBody, hc, hq]
    · rcases hg : (cacheGet cache (cacheKeyOf req.query cands) t).1 with _ | v
      · rcases rem with e | raw
        · simp [handlerBody, hc, hq, hg]
        · simp [handlerBody, hc, hq, hg]
      · simp [handlerBody, hc, hq, hg]

theorem handlerBody_resp (cache : CacheMap) (rmap : RateMap) (t : Nat)
    (req : Request) (rem : Except Unit Str) (pf : Str → Option Parsed) :
    ∀ ra, (handlerBody cache rmap t req rem pf).resp ≠ .rateLimited ra := by
  intro ra
  rcases hc : req.candidates with _ | cands
  · simp [handlerBody, hc]
  · by_cases hq : req.query = []
    · simp [handlerBody, hc, hq]
    · rcases hg : (cacheGet cache (cacheKeyOf req.query cands) t).1 with _ | v
      · rcases rem with e | raw
        · simp [handlerBody, hc, hq, hg]
        · simp [handlerBody, hc, hq, hg]
      · simp [handlerBody, hc, hq, hg]

theorem handler_rate_map (st : ServerState) (t : Nat) (req : Request)
    (rem : Except Unit Str) (pf : Str → Option Parsed)
    (hm : req.method = .post) :
    (handler st t req rem pf).state.rate = (rateCheck st.rate req.ip t).2 := by
  simp only [handler, hm, ne_eq]
  rw [if_neg (by simp)]
  by_cases hok : (rateCheck st.rate req.ip t).1.ok = false
  · simp [hok]
  · simp [hok, handlerBody_rate]

theorem handler_resp_429 (st : ServerState) (t : Nat) (req : Request)
    (rem : Except Unit Str) (pf : Str → Option Parsed)
    (hm : req.method = .post) :
    ((rateCheck st.rate req.ip t).1.ok = false →
      (handler st t req rem pf).resp =
        .rateLimited (((rateCheck st.rate req.ip t).1.resetAt - t + 999) / 1000)) ∧
    ((rateCheck st.rate req.ip t).1.ok = true →
      ∀ ra, (handler st t req rem pf).resp ≠ .rateLimited ra) := by
  constructor
  · intro hok
    simp only [handler, hm, ne_eq]
    rw [if_neg (by simp)]
    simp [hok]
  · intro hok ra
    simp only [handler, hm, ne_eq]
    rw [if_neg (by simp)]
    simp [hok]
    exact handlerBody_resp _ _ _ _ _ _ ra

theorem rate_run_inv (st0 : ServerState) (tf : Nat → Nat) (reqf : Nat → Request)
    (remf : Nat → Except Unit Str) (pf : Str → Option Parsed) (ip : Str)
    (hm : ∀ k, (reqf k).method = .post) (hip : ∀ k, (reqf k).ip = ip)
    (hfresh : getA st0.rate ip = none)
    (hwin : ∀ k, k ≤ MAX_PER_WINDOW → tf k ≤ tf 0 + WINDOW_MS) :
    ∀ k, k ≤ MAX_PER_WINDOW →
      getA (handlerRun st0 tf reqf remf pf k).rate ip =
        (if k = 0 then none else some ⟨k, tf 0 + WINDOW_MS⟩) := by
  intro k
  induction k with
  | zero => intro _; simpa [handlerRun]
  | succ n ih =>
    intro hn
    have eM : MAX_PER_WINDOW = 120 := rfl
    have hn' : n ≤ MAX_PER_WINDOW := by omega
    have hprev := ih hn'
    have hrr : (handlerRun st0 tf reqf remf pf (n+1)).rate =
        (rateCheck (handlerRun st0 tf reqf remf pf n).rate ip (tf n)).2 := by
      show (handler _ _ _ _ _).state.rate = _
      rw [handler_rate_map _ _ _ _ _ (hm n), hip n]
    rcases Nat.eq_zero_or_pos n with rfl | hpos
    · simp only [if_pos rfl] at hprev
      rw [hrr, rateCheck_fresh _ ip (tf 0) hprev]
      simp [getA_setA_self]
    · have hn0 : ¬ n = 0 := by omega
      rw [if_neg hn0] at hprev
      have hwlt : ¬ (⟨n, tf 0 + WINDOW_MS⟩ : RateEntry).resetAt < tf n := by
        have := hwin n (by omega)
        simp only []
        omega
      have hcnt : (⟨n, tf 0 + WINDOW_MS⟩ : RateEntry).count < MAX_PER_WINDOW := by
        simp only []
        omega
      rw [hrr, rateCheck_inc _ ip (tf n) _ hprev hwlt hcnt]
      simp [getA_setA_self]

/-- C5: from a fresh client window, requests 1..120 within the window are
never rate-limited, the 121st is rejected with 429 carrying the remaining
seconds until reset, and any request arriving after its window's reset
time is admitted with the counter reset to 1. -/
theorem C5_theorem (st0 : ServerState) (tf : Nat → Nat) (reqf : Nat → Request)
    (remf : Nat → Except Unit Str) (pf : Str → Option Parsed) (ip : Str)
    (hm : ∀ k, (reqf k).method = .post) (hip : ∀ k, (reqf k).ip = ip)
    (hfresh : getA st0.rate ip = none)
    (hwin : ∀ k, k ≤ MAX_PER_WINDOW → tf k ≤ tf 0 + WINDOW_MS) :
    (∀ k, k < MAX_PER_WINDOW →
      ∀ ra, respAt st0 tf reqf remf pf k ≠ .rateLimited ra) ∧
    respAt st0 tf reqf remf pf MAX_PER_WINDOW =
      .rateLimited ((tf 0 + WINDOW_MS - tf MAX_PER_WINDOW + 999) / 1000) ∧
    (∀ (st : ServerState) (t2 : Nat) (req2 : Request) (rem2 : Except Unit Str),
      req2.method = .post → req2.ip = ip →
      (∀ e, getA st.rate ip = some e → e.resetAt < t2) →
      (∀ ra, (handler st t2 req2 rem2 pf).resp ≠ .rateLimited ra) ∧
      getA (handler st t2 req2 rem2 pf).state.rate ip = some ⟨1, t2 + WINDOW_MS⟩) := by
  have eM : MAX_PER_WINDOW = 120 := rfl
  have hinv := rate_run_inv st0 tf reqf remf pf ip hm hip hfresh hwin
  refine ⟨?_, ?_, ?_⟩
  · intro k hk ra
    have hko : (rateCheck (handlerRun st0 tf reqf remf pf k).rate
        (reqf k).ip (tf k)).1.ok = true := by
      rw [hip k]
      rcases Nat.eq_zero_or_pos k with rfl | hpos
      · have h0 := hinv 0 (by omega)
        simp only [if_pos rfl] at h0
        rw [rateCheck_fresh _ ip (tf 0) h0]
      · have hk' := hinv k (by omega)
        rw [if_neg (by omega)] at hk'
        have hwlt : ¬ (⟨k, tf 0 + WINDOW_MS⟩ : RateEntry).resetAt < tf k := by
          have := hwin k (by omega)
          simp only []
          omega
        have hcnt : (⟨k, tf 0 + WINDOW_MS⟩ : RateEntry).count < MAX_PER_WINDOW := by
          simp only []
          omega
        rw [rateCheck_inc _ ip (tf k) _ hk' hwlt hcnt]
    exact (handler_resp_429 _ _ _ _ _ (hm k)).2 hko ra
  · have h120 := hinv MAX_PER_WINDOW le_rfl
    rw [if_neg (by omega)] at h120
    have hwlt : ¬ (⟨MAX_PER_WINDOW, tf 0 + WINDOW_MS⟩ : RateEntry).resetAt <
        tf MAX_PER_WINDOW := by
      have := hwin MAX_PER_WINDOW le_rfl
      simp only []
      omega
    have hrej := rateCheck_reject
      (handlerRun st0 tf reqf remf pf MAX_PER_WINDOW).rate ip
      (tf MAX_PER_WINDOW) _ h120 hwlt (by simp)
    have := (handler_resp_429 (handlerRun st0 tf reqf remf pf MAX_PER_WINDOW)
      (tf MAX_PER_WINDOW) (reqf MAX_PER_WINDOW) (remf MAX_PER_WINDOW) pf
      (hm MAX_PER_WINDOW)).1
    rw [hip MAX_PER_WINDOW, hrej] at this
    exact this rfl
  · intro st t2 req2 rem2 hm2 hip2 hexp
    have hrc : rateCheck st.rate req2.ip t2 =
        (⟨true, MAX_PER_WINDOW - 1, t2 + WINDOW_MS⟩,
         setA st.rate ip ⟨1, t2 + WINDOW_MS⟩) := by
      rw [hip2]
      rcases hre : getA st.rate ip with _ | e
      · exact rateCheck_fresh _ ip t2 hre
      · exact rateCheck_reset _ ip t2 e hre (hexp e hre)
    constructor
    · intro ra
      exact (handler_resp_429 _ _ _ _ _ hm2).2 (by rw [hrc]) ra
    · rw [handler_rate_map _ _ _ _ _ hm2, hrc]
      exact getA_setA_self _ _ _

/-- C5 (witness): the rate-limit run at a concrete fresh state with all
121 requests at time 0. -/
theorem C5_witness :
    ((∀ k : Nat, ((fun _ : Nat => req5) k).method = .post) ∧
     (∀ k : Nat, ((fun _ : Nat => req5) k).ip = ip0) ∧
     getA (⟨[], []⟩ : ServerState).rate ip0 = none ∧
     (∀ k : Nat, k ≤ MAX_PER_WINDOW →
       (fun _ : Nat => 0) k ≤ (fun _ : Nat => 0) 0 + WINDOW_MS)) ∧
    ((∀ k, k < MAX_PER_WINDOW →
        ∀ ra, respAt ⟨[], []⟩ (fun _ => 0) (fun _ => req5) (fun _ => .error ()) pf0 k ≠
          .rateLimited ra) ∧
     respAt ⟨[], []⟩ (fun _ => 0) (fun _ => req5) (fun _ => .error ()) pf0
         MAX_PER_WINDOW =
       .rateLimited (((fun _ : Nat => 0) 0 + WINDOW_MS -
         (fun _ : Nat => 0) MAX_PER_WINDOW + 999) / 1000) ∧
     (∀ (st : ServerState) (t2 : Nat) (req2 : Request) (rem2 : Except Unit Str),
       req2.method = .post → req2.ip = ip0 →
       (∀ e, getA st.rate ip0 = some e → e.resetAt < t2) →
       (∀ ra, (handler st t2 req2 rem2 pf0).resp ≠ .rateLimited ra) ∧
       getA (handler st t2 req2 rem2 pf0).state.rate ip0 =
         some ⟨1, t2 + WINDOW_MS⟩)) :=
  ⟨⟨fun _ => rfl, fun _ => rfl, rfl, fun _ _ => Nat.zero_le _⟩,
   C5_theorem ⟨[], []⟩ (fun _ => 0) (fun _ => req5) (fun _ => .error ()) pf0 ip0
     (fun _ => rfl) (fun _ => rfl) rfl (fun _ _ => Nat.zero_le _)⟩

theorem containsStr_iff (l : List Str) (k : Str) :
    l.contains k = true ↔ k ∈ l := by
  simp [List.contains]

theorem scanLoop_fill (mk : Elem → Option Cand) :
    ∀ (els : List Elem) (seen : List Str) (acc : List Cand),
      (∀ e ∈ els, (mk e).isSome) →
      ((els.filterMap mk).map candKey).Nodup →
      (∀ k ∈ (els.filterMap mk).map candKey, k ∉ seen) →
      acc.length < MAX_CANDIDATES →
      (scanLoop mk els seen acc).2.length =
        min (acc.length + els.length) MAX_CANDIDATES := by
  intro els
  induction els with
  | nil =>
    intro seen acc _ _ _ hlt
    simp only [scanLoop, List.length_nil]
    omega
  | cons e rest ih =>
    intro seen acc hsome hnodup hfresh hlt
    rcases hmk : mk e with _ | c
    · exact absurd (hsome e (by simp)) (by simp [hmk])
    · have hkeys : ((e :: rest).filterMap mk).map candKey =
          candKey c :: (rest.filterMap mk).map candKey := by
        simp [List.filterMap_cons, hmk]
      have hkey : candKey c ∉ seen := by
        apply hfresh
        rw [hkeys]
        simp
      have hcontains : seen.contains (candKey c) = false := by
        rcases hcon : seen.contains (candKey c) with _ | _
        · rfl
        · exact absurd ((containsStr_iff _ _).mp hcon) hkey
      rw [hkeys] at hnodup
      have hnd := List.nodup_cons.mp hnodup
      simp only [scanLoop, hmk, hcontains, Bool.false_eq_true, if_false]
      by_cases hfull : MAX_CANDIDATES ≤ (acc ++ [c]).length
      · rw [if_pos hfull]
        simp only [List.length_append, List.length_cons, List.length_nil] at *
        omega
      · rw [if_neg hfull]
        have hrest : (scanLoop mk rest (seen ++ [candKey c]) (acc ++ [c])).2.length =
            min ((acc ++ [c]).length + rest.length) MAX_CANDIDATES := by
          apply ih
          · intro e' he'
            exact hsome e' (by simp [he'])
          · exact hnd.2
          · intro k hk
            simp only [List.mem_append, List.mem_singleton]
            push_neg
            constructor
            · exact hfresh k (by rw [hkeys]; simp [hk])
            · intro heq
              rw [heq] at hk
              exact hnd.1 hk
          · simp only [List.length_append, List.length_cons, List.length_nil] at *
            omega
        rw [hrest]
        simp only [List.length_append, List.length_cons, List.length_nil]
        omega

theorem scanLoop_seen (mk : Elem → Option Cand) :
    ∀ (els : List Elem) (seen : List Str) (acc : List Cand) (k : Str),
      k ∈ (scanLoop mk els seen acc).1 →
      k ∈ seen ∨ k ∈ (els.filterMap mk).map candKey := by
  intro els
  induction els with
  | nil =>
    intro seen acc k hk
    simp only [scanLoop] at hk
    exact Or.inl hk
  | cons e rest ih =>
    intro seen acc k hk
    rcases hmk : mk e with _ | c
    · simp only [scanLoop, hmk] at hk
      rcases ih seen acc k hk with h | h
      · exact Or.inl h
      · right
        simp [List.filterMap_cons, hmk, h]
    · have hkeys : ((e :: rest).filterMap mk).map candKey =
          candKey c :: (rest.filterMap mk).map candKey := by
        simp [List.filterMap_cons, hmk]
      rw [hkeys]
      rcases hcon : seen.contains (candKey c) with _ | _
      · simp only [scanLoop, hmk, hcon, Bool.false_eq_true, if_false] at hk
        split at hk
        · rcases List.mem_append.mp hk with h | h
          · exact Or.inl h
          · right
            simp at h
            simp [h]
        · rcases ih _ _ k hk with h | h
          · rcases List.mem_append.mp h with h2 | h2
            · exact Or.inl h2
            · right
              simp at h2
              simp [h2]
          · right
            simp [h]
      · simp only [scanLoop, hmk, hcon, if_true] at hk
        split at hk
        · exact Or.inl hk
        · rcases ih _ _ k hk with h | h
          · exact Or.inl h
          · right
            simp [h]

theorem scanLoop_push_stop (mk : Elem → Option Cand) (e : Elem)
    (rest : List Elem) (seen : List Str) (acc : List Cand) (c : Cand)
    (hmk : mk e = some c) (hnew : candKey c ∉ seen)
    (hfull : MAX_CANDIDATES ≤ acc.length + 1) :
    scanLoop mk (e :: rest) seen acc = (seen ++ [candKey c], acc ++ [c]) := by
  have hcontains : seen.contains (candKey c) = false := by
    rcases hcon : seen.contains (candKey c) with _ | _
    · rfl
    · exact absurd ((containsStr_iff _ _).mp hcon) hnew
  simp only [scanLoop, hmk, hcontains, Bool.false_eq_true, if_false]
  rw [if_pos (by simp only [List.length_append, List.length_cons, List.length_nil]; omega)]

theorem keyA (i : Nat) : candKey (candA i) =
    'l' :: 'i' :: 'n' :: 'k' :: '|' ::
      ((List.replicate i 'h' ++ ['|']) ++ ['t']) := rfl

theorem keyA_length (i : Nat) : (candKey (candA i)).length = i + 7 := by
  rw [keyA]
  simp [List.length_replicate]

theorem anchors_fm :
    bigPage.anchors.filterMap mkAnchorC = (List.range MAX_CANDIDATES).map candA := by
  have h1 : bigPage.anchors = (List.range MAX_CANDIDATES).map bigAnchor := rfl
  have hcomp : mkAnchorC ∘ bigAnchor = some ∘ candA := funext fun i => rfl
  rw [h1, List.filterMap_map, hcomp, List.filterMap_eq_map]

theorem anchor_keys_nodup :
    ((bigPage.anchors.filterMap mkAnchorC).map candKey).Nodup := by
  rw [anchors_fm, List.map_map]
  apply List.Nodup.map
  · intro i j hij
    have := congrArg List.length hij
    simp only [Function.comp_apply, keyA_length] at this
    omega
  · exact List.nodup_range _

theorem keyB_ne_anchor (i : Nat) : candKey (candA i) ≠ candKey candB := by
  intro h
  have hl := congrArg List.length h
  rw [keyA_length] at hl
  have : (candKey candB).length = 9 := rfl
  rw [this] at hl
  have : i = 2 := by omega
  subst this
  exact absurd h (by decide)

theorem keyH_ne_anchor (i : Nat) : candKey (candA i) ≠ candKey candH := by
  intro h
  have hl := congrArg List.length h
  rw [keyA_length] at hl
  have : (candKey candH).length = 10 := rfl
  rw [this] at hl
  have : i = 3 := by omega
  subst this
  exact absurd h (by decide)

theorem big_hsome : ∀ e ∈ bigPage.anchors, (mkAnchorC e).isSome := by
  intro e he
  have h1 : bigPage.anchors = (List.range MAX_CANDIDATES).map bigAnchor := rfl
  rw [h1] at he
  obtain ⟨i, _, rfl⟩ := List.mem_map.mp he
  rfl

theorem big_hlen1 : (scanLoop mkAnchorC bigPage.anchors [] []).2.length =
    MAX_CANDIDATES := by
  have eM : MAX_CANDIDATES = 800 := rfl
  rw [scanLoop_fill mkAnchorC bigPage.anchors [] [] big_hsome anchor_keys_nodup
    (by intro k _; simp) (by simp [eM])]
  have h2 : bigPage.anchors.length = MAX_CANDIDATES := by
    have h1 : bigPage.anchors = (List.range MAX_CANDIDATES).map bigAnchor := rfl
    rw [h1, List.length_map, List.length_range]
  rw [h2]
  simp

theorem big_hseen1 : ∀ k ∈ (scanLoop mkAnchorC bigPage.anchors [] []).1,
    ∃ i, k = candKey (candA i) := by
  intro k hk
  rcases scanLoop_seen mkAnchorC bigPage.anchors [] [] k hk with h | h
  · simp at h
  · rw [anchors_fm, List.map_map] at h
    obtain ⟨i, _, rfl⟩ := List.mem_map.mp h
    exact ⟨i, rfl⟩

theorem big_hbfresh :
    candKey candB ∉ (scanLoop mkAnchorC bigPage.anchors [] []).1 := by
  intro hmem
  obtain ⟨i, hi⟩ := big_hseen1 _ hmem
  exact keyB_ne_anchor i hi.symm

theorem big_hstage2 : scanLoop mkButtonC bigPage.buttons
    (scanLoop mkAnchorC bigPage.anchors [] []).1
    (scanLoop mkAnchorC bigPage.anchors [] []).2 =
    ((scanLoop mkAnchorC bigPage.anchors [] []).1 ++ [candKey candB],
     (scanLoop mkAnchorC bigPage.anchors [] []).2 ++ [candB]) := by
  have hb : bigPage.buttons = [plainElem] := rfl
  rw [hb]
  exact scanLoop_push_stop mkButtonC plainElem [] _ _ candB rfl big_hbfresh
    (by rw [big_hlen1]; omega)

theorem big_hhfresh : candKey candH ∉
    (scanLoop mkAnchorC bigPage.anchors [] []).1 ++ [candKey candB] := by
  intro hmem
  rcases List.mem_append.mp hmem with h | h
  · obtain ⟨i, hi⟩ := big_hseen1 _ h
    exact keyH_ne_anchor i hi.symm
  · simp at h
    exact absurd h (by decide)

theorem big_hfull3 : MAX_CANDIDATES ≤
    ((scanLoop mkAnchorC bigPage.anchors [] []).2 ++ [candB]).length + 1 := by
  rw [List.length_append, big_hlen1]
  omega

theorem big_hstage3 : scanLoop mkHeadingC bigPage.headings
    ((scanLoop mkAnchorC bigPage.anchors [] []).1 ++ [candKey candB])
    ((scanLoop mkAnchorC bigPage.anchors [] []).2 ++ [candB]) =
    ((scanLoop mkAnchorC bigPage.anchors [] []).1 ++ [candKey candB] ++ [candKey candH],
     (scanLoop mkAnchorC bigPage.anchors [] []).2 ++ [candB] ++ [candH]) := by
  have hh : bigPage.headings = [plainElem] := rfl
  rw [hh]
  exact scanLoop_push_stop mkHeadingC plainElem [] _ _ candH rfl big_hhfresh
    big_hfull3

/-- C7: the extraction cap does not hold as claimed: on a page with 800
visible, pairwise-distinct anchors plus one visible button and one visible
heading, `getSearchCandidates` returns 802 candidates — the cap test runs
only after each push and separately per loop, so the button and heading
loops each admit one candidate beyond `MAX_CANDIDATES` (the constant's own
comment calls it a safety cap, so the code, not the claim, is at fault). -/
theorem C7_theorem :
    (getSearchCandidates bigPage).length = 802 ∧
    ¬ (getSearchCandidates bigPage).length ≤ MAX_CANDIDATES := by
  have hgsc : getSearchCandidates bigPage =
      (scanLoop mkAnchorC bigPage.anchors [] []).2 ++ [candB] ++ [candH] := by
    rw [getSearchCandidates, big_hstage2, big_hstage3]
  have hL : ((scanLoop mkAnchorC bigPage.anchors [] []).2 ++ [candB] ++ [candH]).length
      = 802 := by
    rw [List.length_append, List.length_append, big_hlen1]
    decide
  rw [hgsc]
  constructor
  · exact hL
  · rw [hL]
    decide
